import Mathlib

/-!
Shallow embedding of the `Counter` data structure of `counter-rs`
(`src/lib.rs`, with the optional parallel-build adapter of
`src/rayon_iters.rs`).

The Rust type is

    pub struct Counter { pub hashmap: HashMap of key-references to usize }

and every operation works through that single public field, so we represent
a counter directly by its backing map.  The `HashMap` is modelled as an
association list `List (α × Nat)` whose keys are pairwise distinct
(`HMapWF`); the list order stands in for the map's (unspecified) iteration
order.  `usize` counts are modelled as exact naturals; the one place where
the fixed width of `usize` is analysed, the decrement inside `subtract`, is
additionally modelled with explicit wrapping modulo `2 ^ 64`
(`Counter.subtractOneWrap`).
-/

universe u

/-- Association-list model of the backing `HashMap` of key/`usize` entries. -/
abbrev HMap (α : Type u) : Type u := List (α × Nat)

variable {α : Type u} [DecidableEq α]

/-- Model of `HashMap::get` (and of reading through `get_mut`): the value
stored at key `x`, if present; the first matching entry decides. -/
def hmGet : HMap α → α → Option Nat
  | [], _ => none
  | (k, v) :: m, x => if k = x then some v else hmGet m x

/-- Value stored at key `x`, with absent keys counting as `0`. -/
def hmGetD (m : HMap α) (x : α) : Nat := (hmGet m x).getD 0

/-- Model of `HashMap::insert`, and of writing through an `entry` or
`get_mut` reference: replace the entry at key `x` by `v`, appending a fresh
entry when the key is absent. -/
def hmInsert : HMap α → α → Nat → HMap α
  | [], x, v => [(x, v)]
  | (k, w) :: m, x, v => if k = x then (k, v) :: m else (k, w) :: hmInsert m x v

/-- Model of `HashMap::remove`: drop the entry at key `x`. -/
def hmRemove : HMap α → α → HMap α
  | [], _ => []
  | (k, w) :: m, x => if k = x then m else (k, w) :: hmRemove m x

/-- Well-formedness of the association-list model: keys are pairwise
distinct, as they are in a real `HashMap`. -/
abbrev HMapWF (m : HMap α) : Prop := (m.map Prod.fst).Nodup

/-- The `usize` modulus on a 64-bit target. -/
def USIZE : Nat := 2 ^ 64

namespace Counter

/-- Source `Counter::new`: an empty counter. -/
def new : HMap α := []

/-- One iteration of the loop body of `Counter::update`: the source takes
`self.hashmap.entry(item).or_insert(0)` and then increments that entry, so
an absent key enters at `0 + 1 = 1` and a present key at count `v` is
rewritten to `v + 1`. -/
def updateOne (m : HMap α) (item : α) : HMap α :=
  hmInsert m item ((hmGet m item).getD 0 + 1)

/-- Source `Counter::update`: fold the loop body over the iterable, in sequence
order. -/
def update (m : HMap α) (iterable : List α) : HMap α :=
  iterable.foldl updateOne m

/-- Source `Counter::init`: literally `new()` followed by `update(iterable)`. -/
def init (iterable : List α) : HMap α := update new iterable

/-- One iteration of the loop body of `Counter::subtract`, with the exact
(unbounded) count model: if `item` is present with count `v`, the source
applies the guard `v >= 0` (always true on `usize`, hence kept here as the
always-true `0 <= v`), decrements the entry in place, and then removes the
entry when the updated count is `0`; an absent `item` leaves the map
untouched. -/
def subtractOne (m : HMap α) (item : α) : HMap α :=
  match hmGet m item with
  | none => m
  | some v =>
    let v1 := if 0 ≤ v then v - 1 else v
    let m1 := hmInsert m item v1
    if v1 = 0 then hmRemove m1 item else m1

/-- Source `Counter::subtract`: fold the loop body over the iterable, in sequence
order. -/
def subtract (m : HMap α) (iterable : List α) : HMap α :=
  iterable.foldl subtractOne m

/-- One iteration of the loop body of `Counter::subtract` with the `usize`
decrement modelled bit-faithfully: `*entry -= 1` on a `usize` wraps modulo
`2 ^ 64`, so a (well-formedness-violating) stored count of `0` would wrap
to `USIZE - 1` instead of going negative. -/
def subtractOneWrap (m : HMap α) (item : α) : HMap α :=
  match hmGet m item with
  | none => m
  | some v =>
    let v1 := if 0 ≤ v then (v + (USIZE - 1)) % USIZE else v
    let m1 := hmInsert m item v1
    if v1 = 0 then hmRemove m1 item else m1

/-- Source `Counter::subtract` with the wrapping decrement model. -/
def subtractWrap (m : HMap α) (iterable : List α) : HMap α :=
  iterable.foldl subtractOneWrap m

end Counter

namespace Counter

variable {β : Type u}

/-- Source `Counter::most_common`: collect the `(key, value)` pairs of the backing
map into a vector and sort it, stably, with the comparator that compares
the second components reversed, i.e. descending by count.  Note that the
source iterates `self.hashmap.iter()`, so each produced pair is
`(element, count)`, element first. -/
def most_common (m : HMap β) : List (β × Nat) :=
  m.mergeSort (fun p q => decide (q.2 ≤ p.2))

/-- State-passing form of `Counter::most_common`: the method takes the
counter by shared borrow (`&self`) and sorts a freshly collected vector,
not the map, so the call returns the sorted vector together with the
counter state it leaves behind. -/
def most_common_call (m : HMap β) : List (β × Nat) × HMap β :=
  (most_common m, m)

/-- The body of `fn sub` in `impl Sub for Counter` is the `unimplemented`
panic macro and nothing else: every call diverges instead of producing a
counter, modelled as `none`. -/
def sub_op (_c _d : HMap β) : Option (HMap β) := none

/-- The body of `fn bitand` in `impl BitAnd for Counter` is the
`unimplemented` panic macro and nothing else: every call diverges instead
of producing a counter, modelled as `none`. -/
def bitand_op (_c _d : HMap β) : Option (HMap β) := none

/-- The body of `fn bitor` in `impl BitOr for Counter` is the
`unimplemented` panic macro and nothing else: every call diverges instead
of producing a counter, modelled as `none`. -/
def bitor_op (_c _d : HMap β) : Option (HMap β) := none

end Counter

namespace Counter

/-- Modelled from the spec: the body of `impl BitAnd for Counter` is an
unimplemented stub, so the intersection semantics is taken from its doc
comment and the specification's operator table: the result holds key `x`
with count `min(c[x], d[x])` exactly when that minimum is positive. -/
def bitand_spec (c d : HMap α) : HMap α :=
  c.filterMap (fun p =>
    let w := min p.2 (hmGetD d p.1)
    if w = 0 then none else some (p.1, w))

/-- Modelled from the spec: the body of `impl BitOr for Counter` is an
unimplemented stub, so the union semantics is taken from its doc comment
and the specification's operator table: over the union of the key sets,
key `x` gets count `max(c[x], d[x])`. -/
def bitor_spec (c d : HMap α) : HMap α :=
  c.map (fun p => (p.1, max p.2 (hmGetD d p.1))) ++
    d.filter (fun p => decide (hmGet c p.1 = none))

/-- The parallel-build adapter of `src/rayon_iters.rs`: the parallel
iterator is first collected (by the parallelism framework) into a single
sequential collection, here an already-materialised list, and that list is
drained through the ordinary single-threaded `update` starting from
`new`. -/
def from_par_iter (collected : List α) : HMap α := update new collected

/-- Counters reachable through the public operations: `new`, `init`,
`update` and `subtract`. -/
inductive Reachable : HMap α → Prop where
  | new : Reachable new
  | init (s : List α) : Reachable (init s)
  | update (m : HMap α) (s : List α) : Reachable m → Reachable (update m s)
  | subtract (m : HMap α) (s : List α) : Reachable m → Reachable (subtract m s)

end Counter

/-! Basic lemmas about the association-list map model. -/

theorem hmGet_hmInsert_self (m : HMap α) (x : α) (v : Nat) :
    hmGet (hmInsert m x v) x = some v := by
  induction m with
  | nil => simp [hmInsert, hmGet]
  | cons p m ih =>
    obtain ⟨k, w⟩ := p
    by_cases h : k = x
    · simp [hmInsert, hmGet, h]
    · simp [hmInsert, hmGet, h, ih]

theorem hmGet_hmInsert_ne (m : HMap α) {x y : α} (v : Nat) (h : y ≠ x) :
    hmGet (hmInsert m x v) y = hmGet m y := by
  induction m with
  | nil => simp [hmInsert, hmGet, Ne.symm h]
  | cons p m ih =>
    obtain ⟨k, w⟩ := p
    by_cases hk : k = x
    · subst hk
      simp [hmInsert, hmGet, Ne.symm h]
    · simp [hmInsert, hmGet, hk, ih]

theorem hmGet_eq_none_of_not_mem_keys {m : HMap α} {x : α}
    (h : x ∉ m.map Prod.fst) : hmGet m x = none := by
  induction m with
  | nil => rfl
  | cons p m ih =>
    obtain ⟨k, w⟩ := p
    simp only [List.map_cons, List.mem_cons, not_or] at h
    simp [hmGet, Ne.symm h.1, ih h.2]

theorem hmGet_mem {m : HMap α} {x : α} {v : Nat} (h : hmGet m x = some v) :
    (x, v) ∈ m := by
  induction m with
  | nil => simp [hmGet] at h
  | cons p m ih =>
    obtain ⟨k, w⟩ := p
    by_cases hk : k = x
    · subst hk
      simp [hmGet] at h
      simp [h]
    · simp [hmGet, hk] at h
      exact List.mem_cons_of_mem _ (ih h)

theorem mem_hmInsert {m : HMap α} {x : α} {v : Nat} {p : α × Nat}
    (h : p ∈ hmInsert m x v) : p = (x, v) ∨ p ∈ m := by
  induction m with
  | nil => simpa [hmInsert] using h
  | cons q m ih =>
    obtain ⟨k, w⟩ := q
    by_cases hk : k = x
    · simp only [hmInsert, if_pos hk] at h
      rcases List.mem_cons.mp h with h | h
      · subst hk
        exact Or.inl h
      · exact Or.inr (List.mem_cons_of_mem _ h)
    · simp only [hmInsert, if_neg hk] at h
      rcases List.mem_cons.mp h with h | h
      · exact Or.inr (h ▸ List.mem_cons_self _ _)
      · rcases ih h with h | h
        · exact Or.inl h
        · exact Or.inr (List.mem_cons_of_mem _ h)

theorem hmRemove_sublist (m : HMap α) (x : α) : (hmRemove m x).Sublist m := by
  induction m with
  | nil => simp [hmRemove]
  | cons p m ih =>
    obtain ⟨k, w⟩ := p
    by_cases hk : k = x
    · simp [hmRemove, hk, List.sublist_cons_self]
    · simpa [hmRemove, hk] using List.Sublist.cons₂ (k, w) ih

theorem mem_hmRemove {m : HMap α} {x : α} {p : α × Nat}
    (h : p ∈ hmRemove m x) : p ∈ m :=
  (hmRemove_sublist m x).mem h

theorem hmGet_hmRemove_ne (m : HMap α) {x y : α} (h : y ≠ x) :
    hmGet (hmRemove m x) y = hmGet m y := by
  induction m with
  | nil => rfl
  | cons p m ih =>
    obtain ⟨k, w⟩ := p
    by_cases hk : k = x
    · subst hk
      simp [hmRemove, hmGet, Ne.symm h]
    · simp [hmRemove, hmGet, hk, ih]

theorem hmGet_hmRemove_self {m : HMap α} (wf : HMapWF m) (x : α) :
    hmGet (hmRemove m x) x = none := by
  induction m with
  | nil => rfl
  | cons p m ih =>
    obtain ⟨k, w⟩ := p
    simp only [HMapWF, List.map_cons, List.nodup_cons] at wf
    by_cases hk : k = x
    · subst hk
      simp only [hmRemove, if_pos rfl]
      exact hmGet_eq_none_of_not_mem_keys wf.1
    · simp [hmRemove, hmGet, hk, ih wf.2]

theorem mem_keys_hmInsert {m : HMap α} {x y : α} {v : Nat}
    (h : y ∈ (hmInsert m x v).map Prod.fst) :
    y = x ∨ y ∈ m.map Prod.fst := by
  rcases List.mem_map.mp h with ⟨p, hp, hpy⟩
  rcases mem_hmInsert hp with h | h
  · exact Or.inl (hpy ▸ h ▸ rfl)
  · exact Or.inr (hpy ▸ List.mem_map_of_mem _ h)

theorem hmInsert_wf {m : HMap α} (wf : HMapWF m) (x : α) (v : Nat) :
    HMapWF (hmInsert m x v) := by
  induction m with
  | nil => simp [hmInsert, HMapWF]
  | cons p m ih =>
    obtain ⟨k, w⟩ := p
    simp only [HMapWF, List.map_cons, List.nodup_cons] at wf
    by_cases hk : k = x
    · simpa [hmInsert, hk, HMapWF, List.nodup_cons] using wf
    · simp only [hmInsert, if_neg hk, HMapWF, List.map_cons, List.nodup_cons]
      refine ⟨?_, ih wf.2⟩
      intro hmem
      rcases mem_keys_hmInsert hmem with h | h
      · exact hk h
      · exact wf.1 h

theorem hmRemove_wf {m : HMap α} (wf : HMapWF m) (x : α) :
    HMapWF (hmRemove m x) :=
  List.Nodup.sublist (List.Sublist.map Prod.fst (hmRemove_sublist m x)) wf

theorem hmRemove_hmInsert {m : HMap α} {x : α} {v : Nat} (w : Nat)
    (h : hmGet m x = some v) :
    hmRemove (hmInsert m x w) x = hmRemove m x := by
  induction m with
  | nil => simp [hmGet] at h
  | cons p m ih =>
    obtain ⟨k, u⟩ := p
    by_cases hk : k = x
    · simp [hmInsert, hmRemove, hk]
    · simp only [hmGet, if_neg hk] at h
      simp [hmInsert, hmRemove, hk, ih h]

/-! Lemmas about `update` and `subtract`. -/

namespace Counter

theorem update_nil (m : HMap α) : update m [] = m := rfl

theorem update_cons (m : HMap α) (a : α) (s : List α) :
    update m (a :: s) = update (updateOne m a) s := rfl

theorem subtract_nil (m : HMap α) : subtract m [] = m := rfl

theorem subtract_cons (m : HMap α) (a : α) (s : List α) :
    subtract m (a :: s) = subtract (subtractOne m a) s := rfl

theorem hmGetD_updateOne_self (m : HMap α) (a : α) :
    hmGetD (updateOne m a) a = hmGetD m a + 1 := by
  simp [updateOne, hmGetD, hmGet_hmInsert_self]

theorem hmGetD_updateOne_ne (m : HMap α) {a x : α} (h : x ≠ a) :
    hmGetD (updateOne m a) x = hmGetD m x := by
  simp [updateOne, hmGetD, hmGet_hmInsert_ne m _ h]

theorem hmGetD_update (m : HMap α) (s : List α) (x : α) :
    hmGetD (update m s) x = hmGetD m x + s.count x := by
  induction s generalizing m with
  | nil => simp [update]
  | cons a s ih =>
    rw [update_cons, ih]
    by_cases h : a = x
    · subst h
      rw [hmGetD_updateOne_self]
      simp [List.count_cons]
      omega
    · rw [hmGetD_updateOne_ne m (Ne.symm h)]
      simp [List.count_cons, h]

theorem hmGet_update_of_not_mem (m : HMap α) {s : List α} {x : α} (h : x ∉ s) :
    hmGet (update m s) x = hmGet m x := by
  induction s generalizing m with
  | nil => rfl
  | cons a s ih =>
    simp only [List.mem_cons, not_or] at h
    rw [update_cons, ih _ h.2, updateOne, hmGet_hmInsert_ne m _ h.1]

theorem subtractOne_of_absent {m : HMap α} {a : α} (h : hmGet m a = none) :
    subtractOne m a = m := by
  simp [subtractOne, h]

theorem subtractOne_of_present {m : HMap α} {a : α} {v : Nat}
    (h : hmGet m a = some v) :
    subtractOne m a =
      if v - 1 = 0 then hmRemove (hmInsert m a (v - 1)) a
      else hmInsert m a (v - 1) := by
  simp [subtractOne, h]

theorem subtractOneWrap_of_absent {m : HMap α} {a : α} (h : hmGet m a = none) :
    subtractOneWrap m a = m := by
  simp [subtractOneWrap, h]

theorem subtractOneWrap_of_present {m : HMap α} {a : α} {v : Nat}
    (h : hmGet m a = some v) :
    subtractOneWrap m a =
      if (v + (USIZE - 1)) % USIZE = 0 then
        hmRemove (hmInsert m a ((v + (USIZE - 1)) % USIZE)) a
      else hmInsert m a ((v + (USIZE - 1)) % USIZE) := by
  simp [subtractOneWrap, h]

end Counter

/-! Positivity of stored counts. -/

/-- Every entry materialised in the backing map has a strictly positive
count: the floor invariant of the specification. -/
def EntriesPos (m : HMap α) : Prop := ∀ p ∈ m, 0 < p.2

theorem entriesPos_updateOne {m : HMap α} (hm : EntriesPos m) (a : α) :
    EntriesPos (Counter.updateOne m a) := by
  intro p hp
  rcases mem_hmInsert hp with h | h
  · subst h
    exact Nat.succ_pos _
  · exact hm p h

theorem entriesPos_update {m : HMap α} (hm : EntriesPos m) (s : List α) :
    EntriesPos (Counter.update m s) := by
  induction s generalizing m with
  | nil => exact hm
  | cons a s ih => exact ih (entriesPos_updateOne hm a)

theorem entriesPos_subtractOne {m : HMap α} (hm : EntriesPos m) (a : α) :
    EntriesPos (Counter.subtractOne m a) := by
  cases h : hmGet m a with
  | none => rw [Counter.subtractOne_of_absent h]; exact hm
  | some v =>
    rw [Counter.subtractOne_of_present h]
    by_cases hv : v - 1 = 0
    · rw [if_pos hv, hmRemove_hmInsert _ h]
      intro p hp
      exact hm p (mem_hmRemove hp)
    · rw [if_neg hv]
      intro p hp
      rcases mem_hmInsert hp with hq | hq
      · subst hq
        exact Nat.pos_of_ne_zero hv
      · exact hm p hq

theorem entriesPos_subtract {m : HMap α} (hm : EntriesPos m) (s : List α) :
    EntriesPos (Counter.subtract m s) := by
  induction s generalizing m with
  | nil => exact hm
  | cons a s ih => exact ih (entriesPos_subtractOne hm a)

omit [DecidableEq α] in
theorem entriesPos_new : EntriesPos (Counter.new (α := α)) := by
  intro p hp
  cases hp

theorem entriesPos_of_reachable {m : HMap α} (h : Counter.Reachable m) :
    EntriesPos m := by
  induction h with
  | new => exact entriesPos_new
  | init s => exact entriesPos_update entriesPos_new s
  | update m s _ ih => exact entriesPos_update ih s
  | subtract m s _ ih => exact entriesPos_subtract ih s

/-! The `usize` decrement in `subtract` under the floor invariant. -/

/-- Every stored count is a valid, strictly positive `usize` value. -/
def EntriesPosUsize (m : HMap α) : Prop := ∀ p ∈ m, 0 < p.2 ∧ p.2 < USIZE

theorem wrap_dec_eq {v : Nat} (h1 : 0 < v) (h2 : v < USIZE) :
    (v + (USIZE - 1)) % USIZE = v - 1 := by
  have hU : 0 < USIZE := Nat.pos_pow_of_pos 64 (by omega)
  have hv : v + (USIZE - 1) = (v - 1) + 1 * USIZE := by omega
  rw [hv, Nat.add_mul_mod_self_right, Nat.mod_eq_of_lt (by omega)]

theorem subtractOneWrap_eq_subtractOne {m : HMap α}
    (hm : EntriesPosUsize m) (a : α) :
    Counter.subtractOneWrap m a = Counter.subtractOne m a := by
  cases h : hmGet m a with
  | none => rw [Counter.subtractOneWrap_of_absent h, Counter.subtractOne_of_absent h]
  | some v =>
    obtain ⟨h1, h2⟩ := hm (a, v) (hmGet_mem h)
    rw [Counter.subtractOneWrap_of_present h, Counter.subtractOne_of_present h,
      wrap_dec_eq h1 h2]

theorem entriesPosUsize_subtractOne {m : HMap α}
    (hm : EntriesPosUsize m) (a : α) :
    EntriesPosUsize (Counter.subtractOne m a) := by
  cases h : hmGet m a with
  | none => rw [Counter.subtractOne_of_absent h]; exact hm
  | some v =>
    obtain ⟨h1, h2⟩ := hm (a, v) (hmGet_mem h)
    rw [Counter.subtractOne_of_present h]
    by_cases hv : v - 1 = 0
    · rw [if_pos hv, hmRemove_hmInsert _ h]
      intro p hp
      exact hm p (mem_hmRemove hp)
    · rw [if_neg hv]
      intro p hp
      rcases mem_hmInsert hp with hq | hq
      · subst hq
        exact ⟨Nat.pos_of_ne_zero hv, by omega⟩
      · exact hm p hq

theorem subtractWrap_eq_subtract {m : HMap α}
    (hm : EntriesPosUsize m) (s : List α) :
    Counter.subtractWrap m s = Counter.subtract m s := by
  induction s generalizing m with
  | nil => simp [Counter.subtractWrap, Counter.subtract]
  | cons a s ih =>
    show Counter.subtractWrap (Counter.subtractOneWrap m a) s =
      Counter.subtract (Counter.subtractOne m a) s
    rw [subtractOneWrap_eq_subtractOne hm a]
    exact ih (entriesPosUsize_subtractOne hm a)

/-! Lemmas about `most_common`. -/

namespace Counter

variable {β : Type u}

theorem most_common_perm (m : HMap β) : (most_common m).Perm m :=
  List.mergeSort_perm m _

theorem most_common_sorted (m : HMap β) :
    (most_common m).Pairwise (fun p q => q.2 ≤ p.2) := by
  have h := @List.sorted_mergeSort (β × Nat) (fun p q => decide (q.2 ≤ p.2))
    (fun a b c hab hbc => by
      simp only [decide_eq_true_eq] at hab hbc ⊢
      exact le_trans hbc hab)
    (fun a b => by
      simp only [Bool.or_eq_true, decide_eq_true_eq]
      exact le_total b.2 a.2)
    m
  exact h.imp (fun hpq => by simpa using hpq)

end Counter

/-! Lookup lemmas for the spec-modelled intersection and union. -/

theorem hmGet_append (l₁ l₂ : HMap α) (x : α) :
    hmGet (l₁ ++ l₂) x = (hmGet l₁ x).or (hmGet l₂ x) := by
  induction l₁ with
  | nil => simp [hmGet]
  | cons p l ih =>
    obtain ⟨k, v⟩ := p
    by_cases h : k = x
    · simp [hmGet, h]
    · simp [hmGet, h, ih]

theorem hmGet_map_val (c : HMap α) (g : α → Nat → Nat) (x : α) :
    hmGet (c.map (fun p => (p.1, g p.1 p.2))) x = (hmGet c x).map (g x) := by
  induction c with
  | nil => simp [hmGet]
  | cons p c ih =>
    obtain ⟨k, v⟩ := p
    by_cases h : k = x
    · subst h
      simp [hmGet]
    · simp [hmGet, h, ih]


theorem hmGet_bitor_filter_of_none {c : HMap α} (d : HMap α) {x : α}
    (h : hmGet c x = none) :
    hmGet (d.filter (fun p => decide (hmGet c p.1 = none))) x = hmGet d x := by
  induction d with
  | nil => rfl
  | cons p d ih =>
    obtain ⟨k, v⟩ := p
    by_cases hk : k = x
    · subst hk
      simp [List.filter_cons, h, hmGet, ih]
    · by_cases hc : hmGet c k = none
      · simp [List.filter_cons, hc, hmGet, hk, ih]
      · simp [List.filter_cons, hc, hmGet, hk, ih]

theorem bitand_spec_cons_of_min_zero {k : α} {v : Nat} {c d : HMap α}
    (hw : min v (hmGetD d k) = 0) :
    Counter.bitand_spec ((k, v) :: c) d = Counter.bitand_spec c d := by
  unfold Counter.bitand_spec
  rw [List.filterMap_cons]
  dsimp only
  rw [if_pos hw]

theorem bitand_spec_cons_of_min_pos {k : α} {v : Nat} {c d : HMap α}
    (hw : min v (hmGetD d k) ≠ 0) :
    Counter.bitand_spec ((k, v) :: c) d =
      (k, min v (hmGetD d k)) :: Counter.bitand_spec c d := by
  unfold Counter.bitand_spec
  rw [List.filterMap_cons]
  dsimp only
  rw [if_neg hw]

theorem mem_keys_bitand_spec {c d : HMap α} {y : α}
    (h : y ∈ (Counter.bitand_spec c d).map Prod.fst) :
    y ∈ c.map Prod.fst := by
  induction c with
  | nil => simp [Counter.bitand_spec] at h
  | cons p c ih =>
    obtain ⟨k, v⟩ := p
    by_cases hw : min v (hmGetD d k) = 0
    · rw [bitand_spec_cons_of_min_zero hw] at h
      exact List.mem_cons_of_mem _ (ih h)
    · rw [bitand_spec_cons_of_min_pos hw] at h
      simp only [List.map_cons, List.mem_cons] at h ⊢
      rcases h with h | h
      · exact Or.inl h
      · exact Or.inr (ih h)

theorem hmGet_bitand_spec {c : HMap α} (wf : HMapWF c) (d : HMap α) (x : α) :
    hmGet (Counter.bitand_spec c d) x =
      if min (hmGetD c x) (hmGetD d x) = 0 then none
      else some (min (hmGetD c x) (hmGetD d x)) := by
  induction c with
  | nil => simp [Counter.bitand_spec, hmGetD, hmGet]
  | cons p c ih =>
    obtain ⟨k, v⟩ := p
    simp only [HMapWF, List.map_cons, List.nodup_cons] at wf
    by_cases hk : k = x
    · subst hk
      have hva : hmGetD ((k, v) :: c) k = v := by simp [hmGetD, hmGet]
      by_cases hw : min v (hmGetD d k) = 0
      · rw [bitand_spec_cons_of_min_zero hw, hva, if_pos hw]
        exact hmGet_eq_none_of_not_mem_keys
          (fun hmem => wf.1 (mem_keys_bitand_spec hmem))
      · rw [bitand_spec_cons_of_min_pos hw, hva, if_neg hw]
        simp [hmGet]
    · have hvx : hmGetD ((k, v) :: c) x = hmGetD c x := by
        simp [hmGetD, hmGet, hk]
      by_cases hw : min v (hmGetD d k) = 0
      · rw [bitand_spec_cons_of_min_zero hw, hvx]
        exact ih wf.2
      · rw [bitand_spec_cons_of_min_pos hw, hvx]
        simp only [hmGet, if_neg hk]
        exact ih wf.2

theorem hmGetD_bitand_spec {c : HMap α} (wf : HMapWF c) (d : HMap α) (x : α) :
    hmGetD (Counter.bitand_spec c d) x = min (hmGetD c x) (hmGetD d x) := by
  rw [hmGetD, hmGet_bitand_spec wf d x]
  by_cases hw : min (hmGetD c x) (hmGetD d x) = 0
  · rw [if_pos hw, hw]
    rfl
  · rw [if_neg hw]
    rfl

theorem hmGetD_bitor_spec (c d : HMap α) (x : α) :
    hmGetD (Counter.bitor_spec c d) x = max (hmGetD c x) (hmGetD d x) := by
  rw [Counter.bitor_spec, hmGetD, hmGet_append,
    hmGet_map_val c (fun k v => max v (hmGetD d k)) x]
  cases h : hmGet c x with
  | some v =>
    simp [hmGetD, h]
  | none =>
    rw [hmGet_bitor_filter_of_none d h]
    simp [hmGetD, h]

theorem entriesPosUsize_subtract {m : HMap α}
    (hm : EntriesPosUsize m) (s : List α) :
    EntriesPosUsize (Counter.subtract m s) := by
  induction s generalizing m with
  | nil => exact hm
  | cons a s ih => exact ih (entriesPosUsize_subtractOne hm a)

/-! The claims. -/

/-- Claim C1: every counter reachable through the public operations (`new`,
`init`, `update`, `subtract`) has only strictly positive counts in its
backing mapping; in particular, after any further `subtract` every
remaining entry still has a strictly positive count. -/
theorem claim1_reachable_counts_pos {m : HMap α} (h : Counter.Reachable m) :
    (∀ p ∈ m, 0 < p.2)
    ∧ ∀ s : List α, ∀ p ∈ Counter.subtract m s, 0 < p.2 :=
  ⟨entriesPos_of_reachable h,
   fun s => entriesPos_of_reachable (Counter.Reachable.subtract m s h)⟩

/-- Witness for C1, at the reachable counter `init [0, 0, 1]` followed by
`subtract [0]` and its concrete entry `(0, 1)`. -/
theorem claim1_witness :
    ((0, 1) : Nat × Nat) ∈ Counter.subtract (Counter.init ([0, 0, 1] : List Nat)) [0]
    ∧ 0 < ((0, 1) : Nat × Nat).2 :=
  ⟨by decide,
   (claim1_reachable_counts_pos
      (Counter.Reachable.subtract _ [0] (Counter.Reachable.init [0, 0, 1]))).1
     (0, 1) (by decide)⟩

/-- Claim C2: `subtract` processes its iterable element by element; an
occurrence of an element absent from the counter is a no-op, and an
occurrence of an element present with positive count `v` rewrites that
entry to `v - 1`, removing it when the result hits zero, while every other
key is untouched — hence a later occurrence of an element removed earlier
in the same call is again a no-op. -/
theorem claim2_subtract_per_occurrence (m : HMap α) (a : α) (s : List α) :
    (Counter.subtract m (a :: s) = Counter.subtract (Counter.subtractOne m a) s)
    ∧ (hmGet m a = none → Counter.subtractOne m a = m)
    ∧ (HMapWF m → ∀ v, hmGet m a = some v → 0 < v →
        (hmGet (Counter.subtractOne m a) a =
          if v = 1 then none else some (v - 1))
        ∧ ∀ y, y ≠ a → hmGet (Counter.subtractOne m a) y = hmGet m y) := by
  refine ⟨rfl, Counter.subtractOne_of_absent, ?_⟩
  intro wf v hv hpos
  rw [Counter.subtractOne_of_present hv]
  constructor
  · by_cases h1 : v = 1
    · subst h1
      simp [hmGet_hmRemove_self (hmInsert_wf wf a 0)]
    · have hne : v - 1 ≠ 0 := by omega
      rw [if_neg hne, if_neg h1, hmGet_hmInsert_self]
  · intro y hy
    by_cases h1 : v - 1 = 0
    · rw [if_pos h1, hmGet_hmRemove_ne _ hy, hmGet_hmInsert_ne _ _ hy]
    · rw [if_neg h1, hmGet_hmInsert_ne _ _ hy]

/-- Witness for C2, at the counter `[(0, 2), (5, 1)]`: one occurrence of
`0` lowers its count to `1` and leaves key `5` alone, while the absent
element `7` is a no-op. -/
theorem claim2_witness :
    (Counter.subtract ([(0, 2), (5, 1)] : HMap Nat) (0 :: [0, 5]) =
      Counter.subtract (Counter.subtractOne [(0, 2), (5, 1)] 0) [0, 5])
    ∧ hmGet (Counter.subtractOne ([(0, 2), (5, 1)] : HMap Nat) 0) 0 = some 1
    ∧ hmGet (Counter.subtractOne ([(0, 2), (5, 1)] : HMap Nat) 0) 5 = some 1
    ∧ Counter.subtractOne ([(0, 2), (5, 1)] : HMap Nat) 7 = [(0, 2), (5, 1)] := by
  have h := claim2_subtract_per_occurrence ([(0, 2), (5, 1)] : HMap Nat) 0 [0, 5]
  have h7 := claim2_subtract_per_occurrence ([(0, 2), (5, 1)] : HMap Nat) 7 [0, 5]
  have hp := h.2.2 (by decide) 2 (by decide) (by decide)
  refine ⟨h.1, by simpa using hp.1, hp.2 5 (by decide), h7.2.1 (by decide)⟩

/-- Claim C4: evaluating the three implemented-as-stub operators at
concrete counters: each signals the unimplemented panic (modelled as
`none`) instead of returning a counter. -/
theorem claim4_ops_unimplemented :
    Counter.sub_op (Counter.init ([0, 0, 1] : List Nat)) (Counter.init [1]) = none
    ∧ Counter.bitand_op (Counter.init ([0, 0, 1] : List Nat)) (Counter.init [1]) = none
    ∧ Counter.bitor_op (Counter.init ([0, 0, 1] : List Nat)) (Counter.init [1]) = none :=
  ⟨rfl, rfl, rfl⟩

/-- Claim C5, counterexample: on the counter built from three occurrences
of the element `5` the backing map holds the single entry `(5, 3)`; the
claim predicts the `(count, element)` pair `(3, 5)` as the sole item of
`most_common`, but the source yields the `(element, count)` pair
`(5, 3)`. -/
theorem claim5_pair_order_cex :
    Counter.most_common (Counter.init ([5, 5, 5] : List Nat)) = [(5, 3)]
    ∧ Counter.most_common (Counter.init ([5, 5, 5] : List Nat)) ≠ [(3, 5)] := by
  have hinit : Counter.init ([5, 5, 5] : List Nat) = [(5, 3)] := by decide
  constructor
  · rw [hinit, Counter.most_common, List.mergeSort_singleton]
  · rw [hinit, Counter.most_common, List.mergeSort_singleton]
    decide

omit [DecidableEq α] in
/-- Claim C5 (amended): `most_common` returns the entries of the backing
map as `(element, count)` pairs whose counts are non-increasing, and as a
multiset the returned pairs are exactly the entries of the backing
mapping. -/
theorem claim5_most_common_sorted_perm (m : HMap α) :
    (Counter.most_common m).Pairwise (fun p q => q.2 ≤ p.2)
    ∧ (Counter.most_common m).Perm m :=
  ⟨Counter.most_common_sorted m, Counter.most_common_perm m⟩

/-- Claim C6: `init(s)` is exactly `new()` followed by `update(s)`, and
any element that does not occur in `s` has no entry in `init(s)`. -/
theorem claim6_init_eq_new_update (s : List α) :
    Counter.init s = Counter.update Counter.new s
    ∧ ∀ x, x ∉ s → hmGet (Counter.init s) x = none := by
  refine ⟨rfl, fun x hx => ?_⟩
  rw [Counter.init, Counter.hmGet_update_of_not_mem _ hx]
  rfl

/-- Witness for C6, at the sequence `[1, 2]` and the absent element `5`. -/
theorem claim6_witness :
    Counter.init ([1, 2] : List Nat) = Counter.update Counter.new [1, 2]
    ∧ hmGet (Counter.init ([1, 2] : List Nat)) 5 = none := by
  have h := claim6_init_eq_new_update ([1, 2] : List Nat)
  exact ⟨h.1, h.2 5 (by decide)⟩

/-- Claim C7: one `update` adds, for every element `x`, exactly the number
of occurrences of `x` in the iterable to its count (an absent element
enters at `1`), so the resulting counts depend only on the multiset of
elements: any permutation of the iterable produces the same counts, also
through the parallel-build adapter. -/
theorem claim7_update_counts (m : HMap α) (s : List α) (x : α) :
    hmGetD (Counter.update m s) x = hmGetD m x + s.count x
    ∧ ∀ t : List α, s.Perm t →
        (hmGetD (Counter.update m s) x = hmGetD (Counter.update m t) x
         ∧ hmGetD (Counter.from_par_iter s) x = hmGetD (Counter.from_par_iter t) x) := by
  refine ⟨Counter.hmGetD_update m s x, fun t hperm => ⟨?_, ?_⟩⟩
  · rw [Counter.hmGetD_update, Counter.hmGetD_update, hperm.count_eq]
  · rw [Counter.from_par_iter, Counter.from_par_iter,
      Counter.hmGetD_update, Counter.hmGetD_update, hperm.count_eq]

/-- Witness for C7, at the counter `[(7, 1)]`, the sequence `[7, 3, 7]`
and its permutation `[3, 7, 7]`. -/
theorem claim7_witness :
    hmGetD (Counter.update ([(7, 1)] : HMap Nat) [7, 3, 7]) 7 =
      hmGetD ([(7, 1)] : HMap Nat) 7 + List.count 7 [7, 3, 7]
    ∧ hmGetD (Counter.update ([(7, 1)] : HMap Nat) [7, 3, 7]) 7 =
        hmGetD (Counter.update ([(7, 1)] : HMap Nat) [3, 7, 7]) 7 := by
  have h := claim7_update_counts ([(7, 1)] : HMap Nat) [7, 3, 7] 7
  exact ⟨h.1, (h.2 [3, 7, 7] (by decide)).1⟩

/-- Claim C8: for the spec-modelled intersection and union, for every key
the intersection count is the minimum of the operands' counts, the union
count is the maximum, and their sum equals the sum of the operands'
counts — the lattice identity; a key absent from a map counts as `0`. -/
theorem claim8_lattice_identity {c : HMap α} (wf : HMapWF c) (d : HMap α) (x : α) :
    hmGetD (Counter.bitand_spec c d) x = min (hmGetD c x) (hmGetD d x)
    ∧ hmGetD (Counter.bitor_spec c d) x = max (hmGetD c x) (hmGetD d x)
    ∧ hmGetD (Counter.bitand_spec c d) x + hmGetD (Counter.bitor_spec c d) x =
        hmGetD c x + hmGetD d x := by
  refine ⟨hmGetD_bitand_spec wf d x, hmGetD_bitor_spec c d x, ?_⟩
  rw [hmGetD_bitand_spec wf d x, hmGetD_bitor_spec c d x]
  rcases le_total (hmGetD c x) (hmGetD d x) with h | h
  · rw [min_eq_left h, max_eq_right h]
  · rw [min_eq_right h, max_eq_left h, Nat.add_comm]

/-- Witness for C8, at the counters `[(0, 2), (1, 1)]` and
`[(0, 1), (2, 5)]` and the shared key `0`. -/
theorem claim8_witness :
    hmGetD (Counter.bitand_spec ([(0, 2), (1, 1)] : HMap Nat) [(0, 1), (2, 5)]) 0 =
      min (hmGetD ([(0, 2), (1, 1)] : HMap Nat) 0) (hmGetD ([(0, 1), (2, 5)] : HMap Nat) 0)
    ∧ hmGetD (Counter.bitor_spec ([(0, 2), (1, 1)] : HMap Nat) [(0, 1), (2, 5)]) 0 =
        max (hmGetD ([(0, 2), (1, 1)] : HMap Nat) 0) (hmGetD ([(0, 1), (2, 5)] : HMap Nat) 0)
    ∧ hmGetD (Counter.bitand_spec ([(0, 2), (1, 1)] : HMap Nat) [(0, 1), (2, 5)]) 0 +
        hmGetD (Counter.bitor_spec ([(0, 2), (1, 1)] : HMap Nat) [(0, 1), (2, 5)]) 0 =
        hmGetD ([(0, 2), (1, 1)] : HMap Nat) 0 + hmGetD ([(0, 1), (2, 5)] : HMap Nat) 0 :=
  claim8_lattice_identity (by decide) [(0, 1), (2, 5)] 0

/-- Claim C9: `most_common` is a read-only query: the counter state left
behind by the call is exactly the state before it, key set and every count
included. -/
theorem claim9_most_common_read_only (m : HMap α) :
    (Counter.most_common_call m).2 = m
    ∧ ∀ x, hmGet (Counter.most_common_call m).2 x = hmGet m x :=
  ⟨rfl, fun _ => rfl⟩

/-- Claim C10: under the floor invariant every stored count is at least
`1` (and a representable `usize` value), so each decrement performed by
`subtract` acts on a count of at least `1` and the `usize` subtraction
never underflows: running `subtract` with bit-faithful wrapping arithmetic
coincides with running it with exact arithmetic, and the invariant is
preserved. -/
theorem claim10_subtract_no_underflow {m : HMap α}
    (hm : ∀ p ∈ m, 0 < p.2 ∧ p.2 < USIZE) (s : List α) :
    Counter.subtractWrap m s = Counter.subtract m s
    ∧ ∀ p ∈ Counter.subtract m s, 0 < p.2 ∧ p.2 < USIZE :=
  ⟨subtractWrap_eq_subtract hm s, entriesPosUsize_subtract hm s⟩

/-- Witness for C10, at the counter `[(0, 2)]` and the sequence
`[0, 0, 0]`. -/
theorem claim10_witness :
    Counter.subtractWrap ([(0, 2)] : HMap Nat) [0, 0, 0] =
      Counter.subtract ([(0, 2)] : HMap Nat) [0, 0, 0] :=
  (claim10_subtract_no_underflow (by decide) [0, 0, 0]).1
